import Mathlib

/-!
Verification of the `.strings` line parser in
`OneSkyPlugin.xcplugin/Contents/Resources/source_analysis.py`.

The Python module parses Apple `.strings` resource files line by line with a
small state machine (`LocalizedStringLineParser.parse_line`) driven by nine
anchored regular expressions on the `LocalizedString` class.  We embed the
code shallowly:

* lines are `List Char`;
* each Python regular expression is transcribed, element by element, into a
  `List RElem` pattern, and `reMatch` implements the anchored
  leftmost-greedy backtracking match of Python's `re.match` for exactly the
  constructs these patterns use (literal characters, `c?`, `\w*`, `\s*`,
  captured `(.+)` groups, and the terminal `$`, which in Python matches at
  the end of the string or just before one final newline);
* the parser object is a structure carrying the mutable fields of
  `LocalizedStringLineParser`; `parse_line` returns
  `Except Unit (parser × Option LocalizedString)`, where `.error ()` marks
  the places where the Python code would raise (`None + str`, i.e. reading
  an unset or `None` accumulator in the multi-line states).

Python 2 semantics are used for the character classes: `\w` is
`[a-zA-Z0-9_]` and `\s` is the six ASCII space characters.
-/

/-- Python 2 `\w` character class: ASCII letters, digits and underscore. -/
def isWord (c : Char) : Bool :=
  ('a' ≤ c && c ≤ 'z') || ('A' ≤ c && c ≤ 'Z') || ('0' ≤ c && c ≤ '9') || c = '_'

/-- Python 2 `\s` character class: the six ASCII whitespace characters. -/
def isSpace (c : Char) : Bool :=
  c = ' ' || c = '\t' || c = '\n' || c = '\r' || c = '\x0c' || c = '\x0b'

/-- Python `.` (without `DOTALL`): any character except a newline. -/
def isDot (c : Char) : Bool :=
  c != '\n'

/-- One element of a transcribed regular expression.  The patterns in the
source use only these constructs. -/
inductive RElem where
  /-- a literal character -/
  | lit (c : Char)
  /-- an optional character, `c?` (greedy) -/
  | optChar (c : Char)
  /-- `\w*` (greedy) -/
  | wstar
  /-- `\s*` (greedy) -/
  | sstar
  /-- a captured group `(.+)` (greedy) -/
  | dotPlus
deriving DecidableEq

/-- Python `$`: matches at the end of the string, or just before a newline
that ends the string. -/
def endOk : List Char → Bool
  | [] => true
  | [c] => c = '\n'
  | _ => false

/-- Length of the maximal prefix of `s` whose characters satisfy `cls`. -/
def maxRun (cls : Char → Bool) : List Char → Nat
  | [] => 0
  | c :: cs => if cls c then maxRun cls cs + 1 else 0

/-- Try `f n`, `f (n-1)`, …, `f 0` and return the first `some`. -/
def firstSome {G : Type} (f : Nat → Option G) : Nat → Option G
  | 0 => f 0
  | n + 1 =>
    match f (n + 1) with
    | some g => some g
    | none => firstSome f n

/-- Try `f n`, `f (n-1)`, …, `f 1` and return the first `some`
(`none` when `n = 0`). -/
def firstSome1 {G : Type} (f : Nat → Option G) : Nat → Option G
  | 0 => none
  | n + 1 =>
    match f (n + 1) with
    | some g => some g
    | none => firstSome1 f n

/-- Anchored leftmost-greedy backtracking match, as performed by Python's
`re.match` on the fully `$`-terminated patterns of the source.  Returns the
list of captured groups in pattern order, or `none` when the line does not
match. -/
def reMatch : List RElem → List Char → Option (List (List Char))
  | [] => fun s => if endOk s then some [] else none
  | .lit c :: ps => fun s =>
    match s with
    | [] => none
    | x :: xs => if x = c then reMatch ps xs else none
  | .optChar c :: ps => fun s =>
    match s with
    | [] => reMatch ps []
    | x :: xs =>
      if x = c then
        match reMatch ps xs with
        | some gs => some gs
        | none => reMatch ps (x :: xs)
      else reMatch ps (x :: xs)
  | .wstar :: ps => fun s => firstSome (fun i => reMatch ps (s.drop i)) (maxRun isWord s)
  | .sstar :: ps => fun s => firstSome (fun i => reMatch ps (s.drop i)) (maxRun isSpace s)
  | .dotPlus :: ps => fun s =>
    firstSome1 (fun i => (reMatch ps (s.drop i)).map (fun gs => s.take i :: gs))
      (maxRun isDot s)

/-! ## The nine patterns of `LocalizedString`, transcribed from the source

Each constant below transcribes one `re.compile` literal from
`source_analysis.py`, element by element.  All nine patterns begin with `^`
(and `re.match` anchors at the start anyway) and end with `$`, which is what
`reMatch` implements. -/

/-- `^\w*/\* (?P<comment>.+) \*/\w*$` -/
def COMMENT_EXPR : List RElem :=
  [.wstar, .lit '/', .lit '*', .lit ' ', .dotPlus, .lit ' ', .lit '*', .lit '/', .wstar]

/-- `^\w*/\* (?P<comment>.+)\w*$` -/
def COMMENT_MULTILINE_START : List RElem :=
  [.wstar, .lit '/', .lit '*', .lit ' ', .dotPlus, .wstar]

/-- `^(?P<comment>.+)$` -/
def COMMENT_MULTILINE_LINE : List RElem :=
  [.dotPlus]

/-- `^(?P<comment>.+)\*/\s*$` -/
def COMMENT_MULTILINE_END : List RElem :=
  [.dotPlus, .lit '*', .lit '/', .sstar]

/-- `^"(?P<key>.+)" ?= ?"(?P<value>.+)";$` -/
def LOCALIZED_STRING_EXPR : List RElem :=
  [.lit '"', .dotPlus, .lit '"', .optChar ' ', .lit '=', .optChar ' ',
   .lit '"', .dotPlus, .lit '"', .lit ';']

/-- `^"(?P<key>.+)" ?= ?"(?P<value>.+)$` -/
def LOCALIZED_STRING_MULTILINE_START_EXPR : List RElem :=
  [.lit '"', .dotPlus, .lit '"', .optChar ' ', .lit '=', .optChar ' ',
   .lit '"', .dotPlus]

/-- `^(?P<value>.+)$` -/
def LOCALIZED_STRING_MULTILINE_LINE_EXPR : List RElem :=
  [.dotPlus]

/-- `^(?P<value>.+)" ?; ?$` -/
def LOCALIZED_STRING_MULTILINE_END_EXPR : List RElem :=
  [.dotPlus, .lit '"', .optChar ' ', .lit ';', .optChar ' ']

/-- `^"(?P<key>.+)" ?= ?"(?P<value>.+)" ?; ?/\* (?P<comment>.+) \*/$` -/
def LOCALIZED_STRING_TRAILING_COMMENT_EXPR : List RElem :=
  [.lit '"', .dotPlus, .lit '"', .optChar ' ', .lit '=', .optChar ' ',
   .lit '"', .dotPlus, .lit '"', .optChar ' ', .lit ';', .optChar ' ',
   .lit '/', .lit '*', .lit ' ', .dotPlus, .lit ' ', .lit '*', .lit '/']

/-! ## The `LocalizedString` classmethod matchers -/

/-- `LocalizedString.parse_comment` -/
def parse_comment (line : List Char) : Option (List Char) :=
  match reMatch COMMENT_EXPR line with
  | some (c :: _) => some c
  | _ => none

/-- `LocalizedString.parse_multiline_comment_start` -/
def parse_multiline_comment_start (line : List Char) : Option (List Char) :=
  match reMatch COMMENT_MULTILINE_START line with
  | some (c :: _) => some c
  | _ => none

/-- `LocalizedString.parse_multiline_comment_line` -/
def parse_multiline_comment_line (line : List Char) : Option (List Char) :=
  match reMatch COMMENT_MULTILINE_LINE line with
  | some (c :: _) => some c
  | _ => none

/-- `LocalizedString.parse_multiline_comment_end` -/
def parse_multiline_comment_end (line : List Char) : Option (List Char) :=
  match reMatch COMMENT_MULTILINE_END line with
  | some (c :: _) => some c
  | _ => none

/-- `LocalizedString.parse_localized_pair`: a pair of captures on match,
`(None, None)` on no match. -/
def parse_localized_pair (line : List Char) : Option (List Char) × Option (List Char) :=
  match reMatch LOCALIZED_STRING_EXPR line with
  | some (k :: v :: _) => (some k, some v)
  | _ => (none, none)

/-- `LocalizedString.parse_multiline_start` -/
def parse_multiline_start (line : List Char) : Option (List Char) × Option (List Char) :=
  match reMatch LOCALIZED_STRING_MULTILINE_START_EXPR line with
  | some (k :: v :: _) => (some k, some v)
  | _ => (none, none)

/-- `LocalizedString.parse_multiline_line` -/
def parse_multiline_line (line : List Char) : Option (List Char) :=
  match reMatch LOCALIZED_STRING_MULTILINE_LINE_EXPR line with
  | some (v :: _) => some v
  | _ => none

/-- `LocalizedString.parse_multiline_end` -/
def parse_multiline_end (line : List Char) : Option (List Char) :=
  match reMatch LOCALIZED_STRING_MULTILINE_END_EXPR line with
  | some (v :: _) => some v
  | _ => none

/-- `LocalizedString.parse_trailing_comment`: a triple of captures on match,
`(None, None, None)` on no match. -/
def parse_trailing_comment (line : List Char) :
    Option (List Char) × Option (List Char) × Option (List Char) :=
  match reMatch LOCALIZED_STRING_TRAILING_COMMENT_EXPR line with
  | some (k :: v :: c :: _) => (some k, some v, some c)
  | _ => (none, none, none)

/-! ## The state machine -/

/-- The `ParseStates` dictionary of `LocalizedStringLineParser.__init__`. -/
inductive ParseStates where
  | COMMENT
  | STRING
  | TRAILING_COMMENT
  | STRING_MULTILINE
  | COMMENT_MULTILINE
deriving DecidableEq

/-- A `LocalizedString` object as built by `build_localizedString`: the
constructor accepts `None` for any field. -/
structure LocalizedString where
  key : Option (List Char)
  value : Option (List Char)
  comment : Option (List Char)
deriving DecidableEq

/-- The mutable fields of a `LocalizedStringLineParser` object.
`comment_part` and `value_part` model `self.comment_partial` and
`self.value_partial`; Python leaves them unset until first assignment, and
the only reads happen where a `None` value would raise anyway, so `none`
models both "unset" and `None`. -/
structure LocalizedStringLineParser where
  parse_state : ParseStates
  key : Option (List Char)
  value : Option (List Char)
  comment : Option (List Char)
  comment_part : Option (List Char)
  value_part : Option (List Char)
deriving DecidableEq

/-- The parser as produced by `LocalizedStringLineParser.__init__`. -/
def initParser : LocalizedStringLineParser :=
  ⟨.COMMENT, none, none, none, none, none⟩

/-- `build_localizedString`: build the entry from the accumulated fields and
reset them. -/
def build_localizedString (p : LocalizedStringLineParser) :
    LocalizedStringLineParser × LocalizedString :=
  ({ p with key := none, value := none, comment := none },
   ⟨p.key, p.value, p.comment⟩)

/-- `LocalizedStringLineParser.parse_line`.  `.error ()` marks the points
where the Python code would raise: concatenating `'\n'` onto an accumulator
that is `None` (or was never assigned) in the two multi-line states. -/
def parse_line (p : LocalizedStringLineParser) (line : List Char) :
    Except Unit (LocalizedStringLineParser × Option LocalizedString) :=
  match p.parse_state with
  | .COMMENT =>
    let r := parse_trailing_comment line
    let p1 := { p with key := r.1, value := r.2.1, comment := r.2.2 }
    if r.1.isSome && r.2.1.isSome && r.2.2.isSome then
      .ok ((build_localizedString p1).1, some (build_localizedString p1).2)
    else
      let c2 := parse_comment line
      let p2 := { p1 with comment := c2 }
      if c2.isSome then
        .ok ({ p2 with parse_state := .STRING }, none)
      else
        let cp := parse_multiline_comment_start line
        let p3 := { p2 with comment_part := cp }
        if cp.isSome then
          .ok ({ p3 with parse_state := .COMMENT_MULTILINE }, none)
        else
          .ok (p3, none)
  | .COMMENT_MULTILINE =>
    match parse_multiline_comment_end line with
    | some ce =>
      match p.comment_part with
      | some cp =>
        .ok ({ p with
               comment := some (cp ++ '\n' :: ce)
               comment_part := none
               parse_state := .STRING }, none)
      | none => .error ()
    | none =>
      match parse_multiline_comment_line line with
      | some cl =>
        match p.comment_part with
        | some cp => .ok ({ p with comment_part := some (cp ++ '\n' :: cl) }, none)
        | none => .error ()
      | none => .ok (p, none)
  | .TRAILING_COMMENT =>
    let c := parse_comment line
    let p1 := { p with comment := c }
    if c.isSome then
      let p2 := { p1 with parse_state := .COMMENT }
      .ok ((build_localizedString p2).1, some (build_localizedString p2).2)
    else
      .ok (p1, none)
  | .STRING =>
    let r := parse_localized_pair line
    let p1 := { p with key := r.1, value := r.2 }
    if r.1.isSome && r.2.isSome then
      let p2 := { p1 with parse_state := .COMMENT }
      .ok ((build_localizedString p2).1, some (build_localizedString p2).2)
    else
      let r2 := parse_multiline_start line
      let p2 := { p1 with key := r2.1, value_part := r2.2 }
      if r2.1.isSome && r2.2.isSome then
        .ok ({ p2 with parse_state := .STRING_MULTILINE, value := none }, none)
      else
        .ok (p2, none)
  | .STRING_MULTILINE =>
    match parse_multiline_end line with
    | some ve =>
      match p.value_part with
      | some vp =>
        let p1 := { p with
                    value := some (vp ++ '\n' :: ve)
                    value_part := none
                    parse_state := .COMMENT }
        .ok ((build_localizedString p1).1, some (build_localizedString p1).2)
      | none => .error ()
    | none =>
      match parse_multiline_line line with
      | some vl =>
        match p.value_part with
        | some vp => .ok ({ p with value_part := some (vp ++ '\n' :: vl) }, none)
        | none => .error ()
      | none => .ok (p, none)

/-- Feed a sequence of lines, collecting the per-line results in order
(`none` for a line that emits nothing), as the `parse_file` loop does. -/
def runOutputs (p : LocalizedStringLineParser) :
    List (List Char) →
    Except Unit (LocalizedStringLineParser × List (Option LocalizedString))
  | [] => .ok (p, [])
  | l :: ls =>
    match parse_line p l with
    | .error e => .error e
    | .ok (p', out) =>
      match runOutputs p' ls with
      | .error e => .error e
      | .ok (p'', outs) => .ok (p'', out :: outs)

/-! ## Line shapes used by the claims -/

/-- The single-line entry `"K" = "V";`. -/
def pairLine (K V : List Char) : List Char :=
  '"' :: (K ++ ('"' :: ' ' :: '=' :: ' ' :: '"' :: (V ++ ['"', ';'])))

/-- The single-line entry with trailing comment `"K" = "V"; /* C */`. -/
def trailLine (K V C : List Char) : List Char :=
  '"' :: (K ++ ('"' :: ' ' :: '=' :: ' ' :: '"' ::
    (V ++ ('"' :: ';' :: ' ' :: '/' :: '*' :: ' ' :: (C ++ [' ', '*', '/'])))))

/-! ## A declarative description of matching

`Decomp ps s gs` says that `s` can be split along the pattern `ps` with
captured groups `gs`, with no greediness constraint.  The backtracking
matcher returns `some` exactly when such a split exists (soundness and
completeness below); on the concrete line shapes of the claims the split is
unique, which pins down the captures `reMatch` returns. -/
def Decomp : List RElem → List Char → List (List Char) → Prop
  | [], s, gs => endOk s = true ∧ gs = []
  | .lit c :: ps, s, gs => ∃ s', s = c :: s' ∧ Decomp ps s' gs
  | .optChar c :: ps, s, gs =>
    Decomp ps s gs ∨ ∃ s', s = c :: s' ∧ Decomp ps s' gs
  | .wstar :: ps, s, gs =>
    ∃ a s', s = a ++ s' ∧ (∀ x ∈ a, isWord x = true) ∧ Decomp ps s' gs
  | .sstar :: ps, s, gs =>
    ∃ a s', s = a ++ s' ∧ (∀ x ∈ a, isSpace x = true) ∧ Decomp ps s' gs
  | .dotPlus :: ps, s, gs =>
    ∃ a s' gs', s = a ++ s' ∧ a ≠ [] ∧ (∀ x ∈ a, isDot x = true) ∧
      gs = a :: gs' ∧ Decomp ps s' gs'

/-- Invariant of every reachable parser: in `COMMENT_MULTILINE` the comment
accumulator is set, in `STRING_MULTILINE` both the key and the value
accumulator are set, and the dead `TRAILING_COMMENT` state never occurs. -/
def ParserInv (p : LocalizedStringLineParser) : Prop :=
  (p.parse_state = .COMMENT_MULTILINE → p.comment_part.isSome = true) ∧
  (p.parse_state = .STRING_MULTILINE →
    p.value_part.isSome = true ∧ p.key.isSome = true) ∧
  p.parse_state ≠ .TRAILING_COMMENT

theorem firstSome_eq_some {G : Type} {f : Nat → Option G} {g : G} :
    ∀ {n : Nat}, firstSome f n = some g → ∃ i, i ≤ n ∧ f i = some g := by
  intro n
  induction n with
  | zero => exact fun h => ⟨0, Nat.le_refl 0, h⟩
  | succ n ih =>
    intro h
    simp only [firstSome] at h
    cases hf : f (n + 1) with
    | some g2 => rw [hf] at h; exact ⟨n + 1, Nat.le_refl _, hf.trans h⟩
    | none =>
      rw [hf] at h
      obtain ⟨i, hi, hfi⟩ := ih h
      exact ⟨i, Nat.le_succ_of_le hi, hfi⟩

theorem firstSome1_eq_some {G : Type} {f : Nat → Option G} {g : G} :
    ∀ {n : Nat}, firstSome1 f n = some g → ∃ i, 1 ≤ i ∧ i ≤ n ∧ f i = some g := by
  intro n
  induction n with
  | zero => intro h; simp [firstSome1] at h
  | succ n ih =>
    intro h
    simp only [firstSome1] at h
    cases hf : f (n + 1) with
    | some g2 =>
      rw [hf] at h
      exact ⟨n + 1, Nat.succ_le_succ (Nat.zero_le n), Nat.le_refl _, hf.trans h⟩
    | none =>
      rw [hf] at h
      obtain ⟨i, h1, hi, hfi⟩ := ih h
      exact ⟨i, h1, Nat.le_succ_of_le hi, hfi⟩

theorem firstSome_isSome {G : Type} {f : Nat → Option G} :
    ∀ {n i : Nat}, i ≤ n → (f i).isSome = true → ∃ g, firstSome f n = some g := by
  intro n
  induction n with
  | zero =>
    intro i hi h
    interval_cases i
    cases hf : f 0 with
    | some g => exact ⟨g, hf⟩
    | none => rw [hf] at h; simp at h
  | succ n ih =>
    intro i hi h
    cases hf : f (n + 1) with
    | some g => exact ⟨g, by simp [firstSome, hf]⟩
    | none =>
      have hin : i ≤ n := by
        rcases Nat.lt_or_ge i (n + 1) with h' | h'
        · exact Nat.lt_succ_iff.mp h'
        · exfalso
          have : i = n + 1 := Nat.le_antisymm hi h'
          rw [this, hf] at h
          simp at h
      obtain ⟨g, hg⟩ := ih hin h
      exact ⟨g, by simp [firstSome, hf, hg]⟩

theorem firstSome1_isSome {G : Type} {f : Nat → Option G} :
    ∀ {n i : Nat}, 1 ≤ i → i ≤ n → (f i).isSome = true →
      ∃ g, firstSome1 f n = some g := by
  intro n
  induction n with
  | zero => intro i h1 hi _; omega
  | succ n ih =>
    intro i h1 hi h
    cases hf : f (n + 1) with
    | some g => exact ⟨g, by simp [firstSome1, hf]⟩
    | none =>
      have hin : i ≤ n := by
        rcases Nat.lt_or_ge i (n + 1) with h' | h'
        · exact Nat.lt_succ_iff.mp h'
        · exfalso
          have : i = n + 1 := Nat.le_antisymm hi h'
          rw [this, hf] at h
          simp at h
      obtain ⟨g, hg⟩ := ih h1 hin h
      exact ⟨g, by simp [firstSome1, hf, hg]⟩

theorem maxRun_le_length (cls : Char → Bool) : ∀ s : List Char, maxRun cls s ≤ s.length := by
  intro s
  induction s with
  | nil => simp [maxRun]
  | cons c cs ih =>
    simp only [maxRun]
    split
    · simpa using ih
    · simp

theorem cls_of_mem_take {cls : Char → Bool} :
    ∀ {s : List Char} {i : Nat}, i ≤ maxRun cls s → ∀ x ∈ s.take i, cls x = true := by
  intro s
  induction s with
  | nil => intro i _ x hx; simp at hx
  | cons c cs ih =>
    intro i hi x hx
    simp only [maxRun] at hi
    by_cases hc : cls c = true
    · rw [if_pos hc] at hi
      cases i with
      | zero => simp at hx
      | succ j =>
        rw [List.take_succ_cons] at hx
        rcases List.mem_cons.mp hx with rfl | hx'
        · exact hc
        · exact ih (Nat.succ_le_succ_iff.mp hi) x hx'
    · rw [if_neg hc] at hi
      have : i = 0 := Nat.le_zero.mp hi
      rw [this] at hx
      simp at hx

theorem length_le_maxRun {cls : Char → Bool} :
    ∀ {a b : List Char}, (∀ x ∈ a, cls x = true) → a.length ≤ maxRun cls (a ++ b) := by
  intro a
  induction a with
  | nil => intro b _; simp
  | cons c cs ih =>
    intro b h
    have hc : cls c = true := h c (List.mem_cons_self c cs)
    simp only [List.cons_append, maxRun, if_pos hc, List.length_cons]
    exact Nat.succ_le_succ (ih fun x hx => h x (List.mem_cons_of_mem c hx))

theorem take_ne_nil_of_pos {s : List Char} {i : Nat} (h1 : 1 ≤ i) (h2 : i ≤ s.length) :
    s.take i ≠ [] := by
  cases s with
  | nil => simp at h2; omega
  | cons c cs =>
    cases i with
    | zero => omega
    | succ j => simp [List.take_succ_cons]

/-- Soundness of the matcher: a successful `reMatch` yields a valid
decomposition of the line along the pattern. -/
theorem reMatch_sound :
    ∀ (ps : List RElem) (s : List Char) (gs : List (List Char)),
      reMatch ps s = some gs → Decomp ps s gs := by
  intro ps
  induction ps with
  | nil =>
    intro s gs h
    simp only [reMatch] at h
    split at h
    · exact ⟨by assumption, (Option.some_inj.mp h).symm⟩
    · exact absurd h (by simp)
  | cons e ps ih =>
    cases e with
    | lit c =>
      intro s gs h
      cases s with
      | nil => simp [reMatch] at h
      | cons x xs =>
        simp only [reMatch] at h
        split at h
        · exact ⟨xs, by rename_i hx; rw [hx], ih xs gs h⟩
        · exact absurd h (by simp)
    | optChar c =>
      intro s gs h
      cases s with
      | nil =>
        simp only [reMatch] at h
        exact Or.inl (ih [] gs h)
      | cons x xs =>
        simp only [reMatch] at h
        split at h
        · rename_i hx
          cases hr : reMatch ps xs with
          | some gs2 =>
            rw [hr] at h
            exact Or.inr ⟨xs, by rw [hx], ih xs gs (hr.trans h)⟩
          | none =>
            rw [hr] at h
            exact Or.inl (ih (x :: xs) gs h)
        · exact Or.inl (ih (x :: xs) gs h)
    | wstar =>
      intro s gs h
      simp only [reMatch] at h
      obtain ⟨i, hi, hfi⟩ := firstSome_eq_some h
      exact ⟨s.take i, s.drop i, (List.take_append_drop i s).symm,
        cls_of_mem_take hi, ih _ gs hfi⟩
    | sstar =>
      intro s gs h
      simp only [reMatch] at h
      obtain ⟨i, hi, hfi⟩ := firstSome_eq_some h
      exact ⟨s.take i, s.drop i, (List.take_append_drop i s).symm,
        cls_of_mem_take hi, ih _ gs hfi⟩
    | dotPlus =>
      intro s gs h
      simp only [reMatch] at h
      obtain ⟨i, h1, hi, hfi⟩ := firstSome1_eq_some h
      cases hr : reMatch ps (s.drop i) with
      | none => rw [hr] at hfi; simp at hfi
      | some gs2 =>
        rw [hr] at hfi
        simp only [Option.map_some'] at hfi
        refine ⟨s.take i, s.drop i, gs2, (List.take_append_drop i s).symm,
          take_ne_nil_of_pos h1 (hi.trans (maxRun_le_length isDot s)),
          cls_of_mem_take hi, (Option.some_inj.mp hfi).symm, ih _ gs2 hr⟩

/-- Completeness of the matcher: if any decomposition exists, `reMatch`
succeeds (possibly with different, greedier captures). -/
theorem reMatch_complete :
    ∀ (ps : List RElem) (s : List Char) (gs : List (List Char)),
      Decomp ps s gs → ∃ gs2, reMatch ps s = some gs2 := by
  intro ps
  induction ps with
  | nil =>
    intro s gs h
    exact ⟨[], by simp [reMatch, h.1]⟩
  | cons e ps ih =>
    cases e with
    | lit c =>
      intro s gs h
      obtain ⟨s', rfl, hd⟩ := h
      obtain ⟨gs2, hgs2⟩ := ih s' gs hd
      exact ⟨gs2, by simp [reMatch, hgs2]⟩
    | optChar c =>
      intro s gs h
      rcases h with hd | ⟨s', rfl, hd⟩
      · obtain ⟨gs2, hgs2⟩ := ih s gs hd
        cases s with
        | nil => exact ⟨gs2, by simp [reMatch, hgs2]⟩
        | cons x xs =>
          by_cases hx : x = c
          · subst hx
            cases hr : reMatch ps xs with
            | some gs3 => exact ⟨gs3, by simp [reMatch, hr]⟩
            | none => exact ⟨gs2, by simp [reMatch, hr, hgs2]⟩
          · exact ⟨gs2, by simp [reMatch, hx, hgs2]⟩
      · obtain ⟨gs2, hgs2⟩ := ih s' gs hd
        exact ⟨gs2, by simp [reMatch, hgs2]⟩
    | wstar =>
      intro s gs h
      obtain ⟨a, s', rfl, hcls, hd⟩ := h
      obtain ⟨gs2, hgs2⟩ := ih s' gs hd
      have hlen : a.length ≤ maxRun isWord (a ++ s') := length_le_maxRun hcls
      have hdrop : (a ++ s').drop a.length = s' := by simp
      simp only [reMatch]
      refine firstSome_isSome hlen ?_
      simp only [hdrop, hgs2]
      rfl
    | sstar =>
      intro s gs h
      obtain ⟨a, s', rfl, hcls, hd⟩ := h
      obtain ⟨gs2, hgs2⟩ := ih s' gs hd
      have hlen : a.length ≤ maxRun isSpace (a ++ s') := length_le_maxRun hcls
      have hdrop : (a ++ s').drop a.length = s' := by simp
      simp only [reMatch]
      refine firstSome_isSome hlen ?_
      simp only [hdrop, hgs2]
      rfl
    | dotPlus =>
      intro s gs h
      obtain ⟨a, s', gs', rfl, hne, hcls, rfl, hd⟩ := h
      obtain ⟨gs2, hgs2⟩ := ih s' gs' hd
      have hlen : a.length ≤ maxRun isDot (a ++ s') := length_le_maxRun hcls
      have h1 : 1 ≤ a.length := by
        cases a with
        | nil => exact absurd rfl hne
        | cons c cs => simp
      have hdrop : (a ++ s').drop a.length = s' := by simp
      simp only [reMatch]
      refine firstSome1_isSome h1 hlen ?_
      simp only [hdrop, hgs2]
      rfl

/-- If no decomposition exists, the matcher fails. -/
theorem reMatch_eq_none (ps : List RElem) (s : List Char)
    (h : ∀ gs, ¬ Decomp ps s gs) : reMatch ps s = none := by
  cases hr : reMatch ps s with
  | none => rfl
  | some gs => exact absurd (reMatch_sound ps s gs hr) (h gs)

/-- If a decomposition exists and every decomposition carries the same
captures, the matcher returns exactly those captures. -/
theorem reMatch_eq_some (ps : List RElem) (s : List Char) (gs0 : List (List Char))
    (hex : Decomp ps s gs0) (huniq : ∀ gs, Decomp ps s gs → gs = gs0) :
    reMatch ps s = some gs0 := by
  obtain ⟨gs2, hgs2⟩ := reMatch_complete ps s gs0 hex
  rw [hgs2, huniq gs2 (reMatch_sound ps s gs2 hgs2)]

/-- Splitting a string at an occurrence of `q`: when the right-hand shape
starts with a `q`-free prefix `X`, a left split either stops at that first
`q` or jumps past it. -/
theorem splitFirst {q : Char} :
    ∀ {X a b rest : List Char}, q ∉ X → a ++ q :: b = X ++ q :: rest →
      (a = X ∧ b = rest) ∨ ∃ a2, a = X ++ q :: a2 ∧ a2 ++ q :: b = rest := by
  intro X
  induction X with
  | nil =>
    intro a b rest _ h
    cases a with
    | nil => simp at h; exact Or.inl ⟨rfl, h⟩
    | cons x a' =>
      simp only [List.cons_append, List.nil_append, List.cons.injEq] at h
      exact Or.inr ⟨a', by simp [h.1], h.2⟩
  | cons y X' ih =>
    intro a b rest hq h
    cases a with
    | nil =>
      simp only [List.nil_append, List.cons_append, List.cons.injEq] at h
      exact absurd (h.1 ▸ List.mem_cons_self y X') hq
    | cons x a' =>
      simp only [List.cons_append, List.cons.injEq] at h
      have hq' : q ∉ X' := fun hm => hq (List.mem_cons_of_mem y hm)
      rcases ih hq' h.2 with ⟨h1, h2⟩ | ⟨a2, h1, h2⟩
      · exact Or.inl ⟨by simp [h.1, h1], h2⟩
      · exact Or.inr ⟨a2, by simp [h.1, h1], h2⟩

/-- When both prefixes are `q`-free the split at `q` is unique. -/
theorem split_unique {q : Char} {P X x y : List Char}
    (hP : q ∉ P) (hX : q ∉ X) (h : P ++ q :: x = X ++ q :: y) :
    P = X ∧ x = y := by
  rcases splitFirst hX h with h' | ⟨a2, ha, _⟩
  · exact h'
  · exact absurd (ha ▸ (by simp : q ∈ X ++ q :: a2)) hP

/-- A pattern starting with a captured group followed by a literal `q` can
only match a string containing `q`. -/
theorem quote_mem_of_decomp {q : Char} {ps : List RElem} {s : List Char}
    {gs : List (List Char)} (h : Decomp (.dotPlus :: .lit q :: ps) s gs) : q ∈ s := by
  obtain ⟨a, s', _, rfl, _, _, _, hd⟩ := h
  obtain ⟨s'', rfl, _⟩ := hd
  simp

/-- The ` ?= ?"` middle section of the entry patterns: any match consumes a
quote-free prefix up to a literal `"`. -/
theorem midSection {ps : List RElem} {s : List Char} {gs : List (List Char)}
    (h : Decomp (.optChar ' ' :: .lit '=' :: .optChar ' ' :: .lit '"' :: ps) s gs) :
    ∃ P s', s = P ++ '"' :: s' ∧ '"' ∉ P ∧ Decomp ps s' gs := by
  rcases h with h | ⟨t, rfl, h⟩
  · obtain ⟨t2, rfl, h⟩ := h
    rcases h with h | ⟨t3, rfl, h⟩
    · obtain ⟨t4, rfl, h⟩ := h
      exact ⟨['='], t4, rfl, by simp, h⟩
    · obtain ⟨t4, rfl, h⟩ := h
      exact ⟨['=', ' '], t4, rfl, by simp, h⟩
  · obtain ⟨t2, rfl, h⟩ := h
    rcases h with h | ⟨t3, rfl, h⟩
    · obtain ⟨t4, rfl, h⟩ := h
      exact ⟨[' ', '='], t4, rfl, by simp, h⟩
    · obtain ⟨t4, rfl, h⟩ := h
      exact ⟨[' ', '=', ' '], t4, rfl, by simp, h⟩

/-- Characters of a newline-free list satisfy the `.` class. -/
theorem allDot_of_not_mem {K : List Char} (h : '\n' ∉ K) :
    ∀ x ∈ K, isDot x = true := by
  intro x hx
  simp only [isDot, bne_iff_ne, ne_eq]
  exact fun heq => h (heq ▸ hx)

theorem endOk_cases {s : List Char} (h : endOk s = true) : s = [] ∨ s = ['\n'] := by
  cases s with
  | nil => exact Or.inl rfl
  | cons c t =>
    cases t with
    | nil =>
      simp only [endOk, decide_eq_true_eq] at h
      exact Or.inr (by rw [h])
    | cons d t' => simp [endOk] at h

/-! ### One-step unfoldings of `Decomp` -/

theorem decomp_nil {s : List Char} {gs : List (List Char)} :
    Decomp [] s gs ↔ endOk s = true ∧ gs = [] := Iff.rfl

theorem decomp_lit {c : Char} {ps : List RElem} {s : List Char} {gs : List (List Char)} :
    Decomp (.lit c :: ps) s gs ↔ ∃ s', s = c :: s' ∧ Decomp ps s' gs := Iff.rfl

theorem decomp_opt {c : Char} {ps : List RElem} {s : List Char} {gs : List (List Char)} :
    Decomp (.optChar c :: ps) s gs ↔
      Decomp ps s gs ∨ ∃ s', s = c :: s' ∧ Decomp ps s' gs := Iff.rfl

theorem decomp_dotPlus {ps : List RElem} {s : List Char} {gs : List (List Char)} :
    Decomp (.dotPlus :: ps) s gs ↔
      ∃ a s' gs', s = a ++ s' ∧ a ≠ [] ∧ (∀ x ∈ a, isDot x = true) ∧
        gs = a :: gs' ∧ Decomp ps s' gs' := Iff.rfl

theorem decomp_wstar {ps : List RElem} {s : List Char} {gs : List (List Char)} :
    Decomp (.wstar :: ps) s gs ↔
      ∃ a s', s = a ++ s' ∧ (∀ x ∈ a, isWord x = true) ∧ Decomp ps s' gs := Iff.rfl

theorem decomp_sstar {ps : List RElem} {s : List Char} {gs : List (List Char)} :
    Decomp (.sstar :: ps) s gs ↔
      ∃ a s', s = a ++ s' ∧ (∀ x ∈ a, isSpace x = true) ∧ Decomp ps s' gs := Iff.rfl

/-! ### The entry patterns on well-formed lines -/

theorem pair_decomp_exists {K V : List Char} (hK : K ≠ []) (hKnl : '\n' ∉ K)
    (hV : V ≠ []) (hVnl : '\n' ∉ V) :
    Decomp LOCALIZED_STRING_EXPR (pairLine K V) [K, V] := by
  simp only [LOCALIZED_STRING_EXPR, pairLine, Decomp]
  exact ⟨_, rfl, K, _, [V], rfl, hK, allDot_of_not_mem hKnl, rfl,
    _, rfl, Or.inr ⟨_, rfl, _, rfl, Or.inr ⟨_, rfl, _, rfl,
    V, _, [], rfl, hV, allDot_of_not_mem hVnl, rfl,
    _, rfl, _, rfl, rfl, rfl⟩⟩⟩

theorem pair_decomp_unique {K V : List Char} (hKq : '"' ∉ K) (hVq : '"' ∉ V)
    {gs : List (List Char)} (h : Decomp LOCALIZED_STRING_EXPR (pairLine K V) gs) :
    gs = [K, V] := by
  rw [LOCALIZED_STRING_EXPR, pairLine, decomp_lit] at h
  obtain ⟨s1, hs1, h⟩ := h
  rw [decomp_dotPlus] at h
  obtain ⟨a, s2, gs1, hsplit, hane, hanl, rfl, h⟩ := h
  rw [decomp_lit] at h
  obtain ⟨s3, rfl, hmid⟩ := h
  simp only [List.cons.injEq, true_and] at hs1
  subst hs1
  have hsp : a ++ '"' :: s3 =
      K ++ '"' :: (' ' :: '=' :: ' ' :: '"' :: (V ++ ['"', ';'])) := hsplit.symm
  rcases splitFirst hKq hsp with ⟨rfl, rfl⟩ | ⟨a2, rfl, ha2⟩
  · obtain ⟨P, s', hPsp, hPq, h⟩ := midSection hmid
    have hPe : P ++ '"' :: s' = [' ', '=', ' '] ++ '"' :: (V ++ ['"', ';']) := hPsp.symm
    obtain ⟨rfl, rfl⟩ := split_unique hPq (by simp) hPe
    rw [decomp_dotPlus] at h
    obtain ⟨b, s4, gs2, hbsplit, hbne, hbnl, rfl, h⟩ := h
    rw [decomp_lit] at h
    obtain ⟨s5, rfl, h⟩ := h
    rw [decomp_lit] at h
    obtain ⟨s6, rfl, h⟩ := h
    rw [decomp_nil] at h
    obtain ⟨hend, rfl⟩ := h
    have hbe : b ++ '"' :: (';' :: s6) = V ++ '"' :: [';'] := hbsplit.symm
    rcases splitFirst hVq hbe with ⟨rfl, hrest⟩ | ⟨b2, rfl, hb2⟩
    · rfl
    · have hmem : '"' ∈ ([';'] : List Char) := hb2 ▸ (by simp)
      simp at hmem
  · have ha2' : a2 ++ '"' :: s3 =
        [' ', '=', ' '] ++ '"' :: (V ++ ['"', ';']) := ha2
    rcases splitFirst (by simp) ha2' with ⟨rfl, rfl⟩ | ⟨a3, rfl, ha3⟩
    · obtain ⟨P, s', hPsp, hPq, h⟩ := midSection hmid
      have hPe : P ++ '"' :: s' = V ++ '"' :: [';'] := hPsp.symm
      obtain ⟨rfl, rfl⟩ := split_unique hPq hVq hPe
      have hmem : '"' ∈ ([';'] : List Char) := quote_mem_of_decomp h
      simp at hmem
    · have ha3' : a3 ++ '"' :: s3 = V ++ '"' :: [';'] := ha3
      rcases splitFirst hVq ha3' with ⟨rfl, rfl⟩ | ⟨a4, rfl, ha4⟩
      · rcases decomp_opt.mp hmid with h | ⟨t, ht, _⟩
        · obtain ⟨t2, ht2, _⟩ := decomp_lit.mp h
          simp at ht2
        · simp at ht
      · have hmem : '"' ∈ ([';'] : List Char) := ha4 ▸ (by simp)
        simp at hmem

/-- On a well-formed entry line, `parse_localized_pair` returns exactly the
key and the value. -/
theorem parse_localized_pair_pairLine {K V : List Char}
    (hK : K ≠ []) (hKq : '"' ∉ K) (hKnl : '\n' ∉ K)
    (hV : V ≠ []) (hVq : '"' ∉ V) (hVnl : '\n' ∉ V) :
    parse_localized_pair (pairLine K V) = (some K, some V) := by
  rw [parse_localized_pair,
    reMatch_eq_some _ _ [K, V] (pair_decomp_exists hK hKnl hV hVnl)
      (fun gs h => pair_decomp_unique hKq hVq h)]

theorem trail_decomp_exists {K V C : List Char} (hK : K ≠ []) (hKnl : '\n' ∉ K)
    (hV : V ≠ []) (hVnl : '\n' ∉ V) (hC : C ≠ []) (hCnl : '\n' ∉ C) :
    Decomp LOCALIZED_STRING_TRAILING_COMMENT_EXPR (trailLine K V C) [K, V, C] := by
  simp only [LOCALIZED_STRING_TRAILING_COMMENT_EXPR, trailLine, Decomp]
  exact ⟨_, rfl, K, _, [V, C], rfl, hK, allDot_of_not_mem hKnl, rfl,
    _, rfl, Or.inr ⟨_, rfl, _, rfl, Or.inr ⟨_, rfl, _, rfl,
    V, _, [C], rfl, hV, allDot_of_not_mem hVnl, rfl,
    _, rfl, Or.inl ⟨_, rfl, Or.inr ⟨_, rfl, _, rfl, _, rfl, _, rfl,
    C, _, [], rfl, hC, allDot_of_not_mem hCnl, rfl,
    _, rfl, _, rfl, _, rfl, rfl, rfl⟩⟩⟩⟩⟩

/-- The fixed characters between value and comment in a trailing-comment
line. -/
theorem not_quote_mem_tail2 {C : List Char} (hCq : '"' ∉ C) :
    '"' ∉ ';' :: ' ' :: '/' :: '*' :: ' ' :: (C ++ [' ', '*', '/']) := by
  intro hm
  rcases List.mem_cons.mp hm with h | hm
  · exact absurd h (by decide)
  rcases List.mem_cons.mp hm with h | hm
  · exact absurd h (by decide)
  rcases List.mem_cons.mp hm with h | hm
  · exact absurd h (by decide)
  rcases List.mem_cons.mp hm with h | hm
  · exact absurd h (by decide)
  rcases List.mem_cons.mp hm with h | hm
  · exact absurd h (by decide)
  rcases List.mem_append.mp hm with h | h
  · exact hCq h
  · simp at h

theorem trail_decomp_unique {K V C : List Char} (hKq : '"' ∉ K) (hVq : '"' ∉ V)
    (hCq : '"' ∉ C) (hCnl : '\n' ∉ C) {gs : List (List Char)}
    (h : Decomp LOCALIZED_STRING_TRAILING_COMMENT_EXPR (trailLine K V C) gs) :
    gs = [K, V, C] := by
  have htail2q := not_quote_mem_tail2 hCq
  rw [LOCALIZED_STRING_TRAILING_COMMENT_EXPR, trailLine, decomp_lit] at h
  obtain ⟨s1, hs1, h⟩ := h
  rw [decomp_dotPlus] at h
  obtain ⟨a, s2, gs1, hsplit, hane, hanl, rfl, h⟩ := h
  rw [decomp_lit] at h
  obtain ⟨s3, rfl, hmid⟩ := h
  simp only [List.cons.injEq, true_and] at hs1
  subst hs1
  have hsp : a ++ '"' :: s3 =
      K ++ '"' :: (' ' :: '=' :: ' ' :: '"' ::
        (V ++ ('"' :: ';' :: ' ' :: '/' :: '*' :: ' ' :: (C ++ [' ', '*', '/'])))) :=
    hsplit.symm
  rcases splitFirst hKq hsp with ⟨rfl, rfl⟩ | ⟨a2, rfl, ha2⟩
  · -- key captured exactly K
    obtain ⟨P, s', hPsp, hPq, h⟩ := midSection hmid
    have hPe : P ++ '"' :: s' = [' ', '=', ' '] ++ '"' ::
        (V ++ ('"' :: ';' :: ' ' :: '/' :: '*' :: ' ' :: (C ++ [' ', '*', '/']))) :=
      hPsp.symm
    obtain ⟨rfl, rfl⟩ := split_unique hPq (by simp) hPe
    rw [decomp_dotPlus] at h
    obtain ⟨b, s4, gs2, hbsplit, hbne, hbnl, rfl, h⟩ := h
    rw [decomp_lit] at h
    obtain ⟨s5, rfl, h⟩ := h
    have hbe : b ++ '"' :: s5 =
        V ++ '"' :: (';' :: ' ' :: '/' :: '*' :: ' ' :: (C ++ [' ', '*', '/'])) :=
      hbsplit.symm
    rcases splitFirst hVq hbe with ⟨rfl, rfl⟩ | ⟨b2, rfl, hb2⟩
    · -- value captured exactly V
      rw [decomp_opt] at h
      rcases h with h | ⟨t, ht, _⟩
      · rw [decomp_lit] at h
        obtain ⟨s6, hs6, h⟩ := h
        simp only [List.cons.injEq, true_and] at hs6
        subst hs6
        rw [decomp_opt] at h
        rcases h with h | ⟨t, ht, h⟩
        · rw [decomp_lit] at h
          obtain ⟨t2, ht2, _⟩ := h
          simp at ht2
        · simp only [List.cons.injEq, true_and] at ht
          subst ht
          rw [decomp_lit] at h
          obtain ⟨t2, ht2, h⟩ := h
          simp only [List.cons.injEq, true_and] at ht2
          subst ht2
          rw [decomp_lit] at h
          obtain ⟨t3, ht3, h⟩ := h
          simp only [List.cons.injEq, true_and] at ht3
          subst ht3
          rw [decomp_lit] at h
          obtain ⟨t4, ht4, h⟩ := h
          simp only [List.cons.injEq, true_and] at ht4
          subst ht4
          rw [decomp_dotPlus] at h
          obtain ⟨c, s10, gs3, hcsplit, hcne, hcnl2, rfl, h⟩ := h
          rw [decomp_lit] at h
          obtain ⟨s11, rfl, h⟩ := h
          rw [decomp_lit] at h
          obtain ⟨s12, rfl, h⟩ := h
          rw [decomp_lit] at h
          obtain ⟨s13, rfl, h⟩ := h
          rw [decomp_nil] at h
          obtain ⟨hend, rfl⟩ := h
          rcases endOk_cases hend with rfl | rfl
          · have : C ++ [' ', '*', '/'] = c ++ [' ', '*', '/'] := hcsplit
            have hc : C = c := by
              have hlen : C.length = c.length := by
                have := congrArg List.length this
                simp at this
                omega
              exact List.append_inj_left this hlen
            rw [hc]
          · exfalso
            have hmem : '\n' ∈ C ++ [' ', '*', '/'] := hcsplit ▸ (by simp)
            rcases List.mem_append.mp hmem with hm | hm
            · exact hCnl hm
            · simp at hm
      · simp at ht
    · -- value capture jumped past its closing quote: impossible
      exfalso
      have hmem : '"' ∈ ';' :: ' ' :: '/' :: '*' :: ' ' :: (C ++ [' ', '*', '/']) :=
        hb2 ▸ (by simp)
      exact htail2q hmem
  · -- key capture jumped past its closing quote: impossible
    exfalso
    have ha2' : a2 ++ '"' :: s3 = [' ', '=', ' '] ++ '"' ::
        (V ++ ('"' :: ';' :: ' ' :: '/' :: '*' :: ' ' :: (C ++ [' ', '*', '/']))) := ha2
    rcases splitFirst (by simp) ha2' with ⟨rfl, rfl⟩ | ⟨a3, rfl, ha3⟩
    · obtain ⟨P, s', hPsp, hPq, h⟩ := midSection hmid
      have hPe : P ++ '"' :: s' =
          V ++ '"' :: (';' :: ' ' :: '/' :: '*' :: ' ' :: (C ++ [' ', '*', '/'])) :=
        hPsp.symm
      obtain ⟨rfl, rfl⟩ := split_unique hPq hVq hPe
      exact htail2q (quote_mem_of_decomp h)
    · have ha3' : a3 ++ '"' :: s3 =
          V ++ '"' :: (';' :: ' ' :: '/' :: '*' :: ' ' :: (C ++ [' ', '*', '/'])) := ha3
      rcases splitFirst hVq ha3' with ⟨rfl, rfl⟩ | ⟨a4, rfl, ha4⟩
      · rcases decomp_opt.mp hmid with h | ⟨t, ht, _⟩
        · obtain ⟨t2, ht2, _⟩ := decomp_lit.mp h
          simp at ht2
        · simp at ht
      · exact htail2q (ha4 ▸ (by simp))

/-- On a well-formed trailing-comment line, `parse_trailing_comment` returns
exactly the key, the value and the comment. -/
theorem parse_trailing_comment_trailLine {K V C : List Char}
    (hK : K ≠ []) (hKq : '"' ∉ K) (hKnl : '\n' ∉ K)
    (hV : V ≠ []) (hVq : '"' ∉ V) (hVnl : '\n' ∉ V)
    (hC : C ≠ []) (hCq : '"' ∉ C) (hCnl : '\n' ∉ C) :
    parse_trailing_comment (trailLine K V C) = (some K, some V, some C) := by
  rw [parse_trailing_comment,
    reMatch_eq_some _ _ [K, V, C] (trail_decomp_exists hK hKnl hV hVnl hC hCnl)
      (fun gs h => trail_decomp_unique hKq hVq hCq hCnl h)]

/-- A plain `"K" = "V";` line does not match the trailing-comment pattern:
there is no comment after the semicolon. -/
theorem trail_nomatch_pairLine {K V : List Char} (hKq : '"' ∉ K) (hVq : '"' ∉ V) :
    reMatch LOCALIZED_STRING_TRAILING_COMMENT_EXPR (pairLine K V) = none := by
  apply reMatch_eq_none
  intro gs h
  rw [LOCALIZED_STRING_TRAILING_COMMENT_EXPR, pairLine, decomp_lit] at h
  obtain ⟨s1, hs1, h⟩ := h
  rw [decomp_dotPlus] at h
  obtain ⟨a, s2, gs1, hsplit, hane, hanl, rfl, h⟩ := h
  rw [decomp_lit] at h
  obtain ⟨s3, rfl, hmid⟩ := h
  simp only [List.cons.injEq, true_and] at hs1
  subst hs1
  have hsp : a ++ '"' :: s3 =
      K ++ '"' :: (' ' :: '=' :: ' ' :: '"' :: (V ++ ['"', ';'])) := hsplit.symm
  rcases splitFirst hKq hsp with ⟨rfl, rfl⟩ | ⟨a2, rfl, ha2⟩
  · obtain ⟨P, s', hPsp, hPq, h⟩ := midSection hmid
    have hPe : P ++ '"' :: s' = [' ', '=', ' '] ++ '"' :: (V ++ ['"', ';']) := hPsp.symm
    obtain ⟨rfl, rfl⟩ := split_unique hPq (by simp) hPe
    rw [decomp_dotPlus] at h
    obtain ⟨b, s4, gs2, hbsplit, hbne, hbnl, rfl, h⟩ := h
    rw [decomp_lit] at h
    obtain ⟨s5, rfl, h⟩ := h
    have hbe : b ++ '"' :: s5 = V ++ '"' :: [';'] := hbsplit.symm
    rcases splitFirst hVq hbe with ⟨rfl, rfl⟩ | ⟨b2, rfl, hb2⟩
    · rw [decomp_opt] at h
      rcases h with h | ⟨t, ht, _⟩
      · rw [decomp_lit] at h
        obtain ⟨s6, hs6, h⟩ := h
        simp only [List.cons.injEq, true_and] at hs6
        subst hs6
        rw [decomp_opt] at h
        rcases h with h | ⟨t, ht, _⟩
        · rw [decomp_lit] at h
          obtain ⟨t2, ht2, _⟩ := h
          simp at ht2
        · simp at ht
      · simp at ht
    · have hmem : '"' ∈ ([';'] : List Char) := hb2 ▸ (by simp)
      simp at hmem
  · have ha2' : a2 ++ '"' :: s3 =
        [' ', '=', ' '] ++ '"' :: (V ++ ['"', ';']) := ha2
    rcases splitFirst (by simp) ha2' with ⟨rfl, rfl⟩ | ⟨a3, rfl, ha3⟩
    · obtain ⟨P, s', hPsp, hPq, h⟩ := midSection hmid
      have hPe : P ++ '"' :: s' = V ++ '"' :: [';'] := hPsp.symm
      obtain ⟨rfl, rfl⟩ := split_unique hPq hVq hPe
      have hmem : '"' ∈ ([';'] : List Char) := quote_mem_of_decomp h
      simp at hmem
    · have ha3' : a3 ++ '"' :: s3 = V ++ '"' :: [';'] := ha3
      rcases splitFirst hVq ha3' with ⟨rfl, rfl⟩ | ⟨a4, rfl, ha4⟩
      · rw [decomp_opt] at hmid
        rcases hmid with h | ⟨t, ht, _⟩
        · rw [decomp_lit] at h
          obtain ⟨t2, ht2, _⟩ := h
          simp at ht2
        · simp at ht
      · have hmem : '"' ∈ ([';'] : List Char) := ha4 ▸ (by simp)
        simp at hmem

/-- Neither comment pattern (`\w*` then a literal `/`) matches a line whose
first character is neither a word character nor a slash. -/
theorem wstar_slash_nomatch {ps : List RElem} {c : Char} {t : List Char}
    (hw : isWord c = false) (hc : c ≠ '/') :
    reMatch (.wstar :: .lit '/' :: ps) (c :: t) = none := by
  apply reMatch_eq_none
  intro gs h
  rw [decomp_wstar] at h
  obtain ⟨a, s', hsplit, hcls, h⟩ := h
  rw [decomp_lit] at h
  obtain ⟨s2, rfl, _⟩ := h
  cases a with
  | nil =>
    simp only [List.nil_append, List.cons.injEq] at hsplit
    exact hc hsplit.1
  | cons x a' =>
    simp only [List.cons_append, List.cons.injEq] at hsplit
    have hx := hcls x (List.mem_cons_self x a')
    rw [hsplit.1, hx] at hw
    simp at hw

/-- The full-line matcher `^(.+)$` captures exactly the whole line when the
line is nonempty and newline-free. -/
theorem dotPlus_line_match {line : List Char} (hne : line ≠ []) (hnl : '\n' ∉ line) :
    reMatch [.dotPlus] line = some [line] := by
  apply reMatch_eq_some
  · rw [decomp_dotPlus]
    exact ⟨line, [], [], by simp, hne, allDot_of_not_mem hnl, rfl, rfl, rfl⟩
  · intro gs h
    rw [decomp_dotPlus] at h
    obtain ⟨a, s', gs', hsplit, hane, hanl, rfl, h⟩ := h
    rw [decomp_nil] at h
    obtain ⟨hend, rfl⟩ := h
    rcases endOk_cases hend with rfl | rfl
    · rw [hsplit]
      simp
    · exfalso
      exact hnl (hsplit ▸ (by simp))

theorem inv_initParser : ParserInv initParser := by
  refine ⟨?_, ?_, ?_⟩ <;> intro h <;> simp [initParser] at h

/-- One parser step from an invariant state: no exception is raised, the
invariant is preserved, and any emitted entry has its key and value set. -/
theorem parse_line_inv (p : LocalizedStringLineParser) (line : List Char)
    (hp : ParserInv p) :
    ∃ p' out, parse_line p line = .ok (p', out) ∧ ParserInv p' ∧
      ∀ e, out = some e → e.key.isSome = true ∧ e.value.isSome = true := by
  obtain ⟨h1, h2, h3⟩ := hp
  cases hst : p.parse_state with
  | COMMENT =>
    simp only [parse_line, hst]
    rcases htr : parse_trailing_comment line with ⟨k, v, c⟩
    simp only
    split
    · rename_i hcond
      simp only [Bool.and_eq_true, Option.isSome_iff_exists] at hcond
      obtain ⟨⟨⟨kk, hkk⟩, ⟨vv, hvv⟩⟩, ⟨cc, hcc⟩⟩ := hcond
      refine ⟨_, _, rfl, ?_, ?_⟩
      · simp [ParserInv, build_localizedString]
      · intro e he
        simp only [build_localizedString, Option.some_inj] at he
        subst he
        simp [hkk, hvv]
    · split
      · refine ⟨_, _, rfl, ?_, ?_⟩
        · simp [ParserInv]
        · simp
      · split
        · rename_i hcp
          refine ⟨_, _, rfl, ?_, ?_⟩
          · simp only [ParserInv]
            refine ⟨fun _ => hcp, ?_, ?_⟩ <;> simp
          · simp
        · refine ⟨_, _, rfl, ?_, ?_⟩
          · simp [ParserInv]
          · simp
  | COMMENT_MULTILINE =>
    obtain ⟨cp, hcp⟩ := Option.isSome_iff_exists.mp (h1 hst)
    simp only [parse_line, hst, hcp]
    cases hce : parse_multiline_comment_end line with
    | some ce =>
      refine ⟨_, _, rfl, ?_, by simp⟩
      simp [ParserInv]
    | none =>
      cases hcl : parse_multiline_comment_line line with
      | some cl =>
        refine ⟨_, _, rfl, ?_, by simp⟩
        simp [ParserInv]
      | none =>
        exact ⟨p, none, rfl, ⟨h1, h2, h3⟩, by simp⟩
  | TRAILING_COMMENT => exact absurd hst h3
  | STRING =>
    simp only [parse_line, hst]
    rcases hpr : parse_localized_pair line with ⟨k, v⟩
    simp only
    split
    · rename_i hcond
      simp only [Bool.and_eq_true, Option.isSome_iff_exists] at hcond
      obtain ⟨⟨kk, hkk⟩, ⟨vv, hvv⟩⟩ := hcond
      refine ⟨_, _, rfl, ?_, ?_⟩
      · simp [ParserInv, build_localizedString]
      · intro e he
        simp only [build_localizedString, Option.some_inj] at he
        subst he
        simp [hkk, hvv]
    · rcases hms : parse_multiline_start line with ⟨k2, vp⟩
      simp only
      split
      · rename_i hcond
        simp only [Bool.and_eq_true, Option.isSome_iff_exists] at hcond
        obtain ⟨⟨kk, hkk⟩, ⟨vv, hvv⟩⟩ := hcond
        refine ⟨_, _, rfl, ?_, by simp⟩
        simp [ParserInv, hkk, hvv]
      · refine ⟨_, _, rfl, ?_, by simp⟩
        simp [ParserInv]
  | STRING_MULTILINE =>
    obtain ⟨hvp, hk⟩ := h2 hst
    obtain ⟨vp, hvp2⟩ := Option.isSome_iff_exists.mp hvp
    simp only [parse_line, hst, hvp2]
    cases hve : parse_multiline_end line with
    | some ve =>
      refine ⟨_, _, rfl, ?_, ?_⟩
      · simp [ParserInv, build_localizedString]
      · intro e he
        simp only [build_localizedString, Option.some_inj] at he
        subst he
        simpa using hk
    | none =>
      cases hvl : parse_multiline_line line with
      | some vl =>
        refine ⟨_, _, rfl, ?_, by simp⟩
        simp only [ParserInv]
        refine ⟨fun hq => ?_, fun _ => ⟨by simp, ?_⟩, fun hq => ?_⟩
        · cases hq
        · simpa using hk
        · cases hq
      | none =>
        exact ⟨p, none, rfl, ⟨h1, h2, h3⟩, by simp⟩

/-- Running any line sequence from an invariant state never raises, ends in
an invariant state, and every emitted entry has key and value set. -/
theorem runOutputs_inv :
    ∀ (ls : List (List Char)) (p : LocalizedStringLineParser), ParserInv p →
      ∃ p' outs, runOutputs p ls = .ok (p', outs) ∧ ParserInv p' ∧
        ∀ o ∈ outs, ∀ e, o = some e →
          e.key.isSome = true ∧ e.value.isSome = true := by
  intro ls
  induction ls with
  | nil => exact fun p hp => ⟨p, [], rfl, hp, by simp⟩
  | cons l ls ih =>
    intro p hp
    obtain ⟨p1, out, hpl, hp1, hout⟩ := parse_line_inv p l hp
    obtain ⟨p', outs, hrun, hp', houts⟩ := ih p1 hp1
    refine ⟨p', out :: outs, ?_, hp', ?_⟩
    · simp [runOutputs, hpl, hrun]
    · intro o ho e he
      rcases List.mem_cons.mp ho with rfl | ho'
      · exact hout e he
      · exact houts o ho' e he

/-- `parse_trailing_comment` rejects a plain entry line. -/
theorem parse_trailing_comment_pairLine {K V : List Char}
    (hKq : '"' ∉ K) (hVq : '"' ∉ V) :
    parse_trailing_comment (pairLine K V) = (none, none, none) := by
  simp only [parse_trailing_comment, trail_nomatch_pairLine hKq hVq]

/-- `parse_comment` rejects any line starting with a quote. -/
theorem parse_comment_quote {t : List Char} : parse_comment ('"' :: t) = none := by
  simp only [parse_comment, COMMENT_EXPR]
  rw [show ([.wstar, .lit '/', .lit '*', .lit ' ', .dotPlus, .lit ' ', .lit '*',
      .lit '/', .wstar] : List RElem) =
    .wstar :: .lit '/' :: [.lit '*', .lit ' ', .dotPlus, .lit ' ', .lit '*',
      .lit '/', .wstar] from rfl]
  rw [wstar_slash_nomatch (by decide) (by decide)]

/-- `parse_multiline_comment_start` rejects any line starting with a quote. -/
theorem parse_multiline_comment_start_quote {t : List Char} :
    parse_multiline_comment_start ('"' :: t) = none := by
  simp only [parse_multiline_comment_start, COMMENT_MULTILINE_START]
  rw [show ([.wstar, .lit '/', .lit '*', .lit ' ', .dotPlus, .wstar] : List RElem) =
    .wstar :: .lit '/' :: [.lit '*', .lit ' ', .dotPlus, .wstar] from rfl]
  rw [wstar_slash_nomatch (by decide) (by decide)]

/-- `parse_multiline_comment_line` accepts any nonempty newline-free line
verbatim. -/
theorem parse_multiline_comment_line_full {line : List Char}
    (hne : line ≠ []) (hnl : '\n' ∉ line) :
    parse_multiline_comment_line line = some line := by
  simp only [parse_multiline_comment_line, COMMENT_MULTILINE_LINE,
    dotPlus_line_match hne hnl]

/-! ## The claims -/

/-- C4 (confirmed): feeding `/* L1`, ` L2`, ` L3 */`, `"K" = "V";` to a
fresh parser emits nothing on the three comment lines and exactly one entry
on the fourth line, with the comment equal to the three interior line
contents joined by newlines, verbatim and untrimmed:
`L1\n L2\n L3 `. -/
theorem c4_multiline_comment_roundtrip :
    runOutputs initParser
      ["/* L1".toList, " L2".toList, " L3 */".toList, "\"K\" = \"V\";".toList] =
      .ok (initParser,
        [none, none, none,
         some ⟨some "K".toList, some "V".toList, some "L1\n L2\n L3 ".toList⟩]) := by
  rfl

/-- C6 (confirmed): the two-entry file `/* C1 */`, `"k1" = "v1";`,
`/* C2 */`, `"k2" = "v2";` emits exactly the two entries, in file order, on
the entry lines, and nothing on the comment lines. -/
theorem c6_two_entry_file :
    runOutputs initParser
      ["/* C1 */".toList, "\"k1\" = \"v1\";".toList,
       "/* C2 */".toList, "\"k2\" = \"v2\";".toList] =
      .ok (initParser,
        [none, some ⟨some "k1".toList, some "v1".toList, some "C1".toList⟩,
         none, some ⟨some "k2".toList, some "v2".toList, some "C2".toList⟩]) := by
  rfl

/-- C2 counterexample: a fresh parser in the initial state returns no entry
at all for the single well-formed line `"k" = "v";` — the initial state only
tries the three comment-shaped matchers, none of which accepts a bare
entry. -/
theorem c2_fresh_parser_emits_nothing :
    runOutputs initParser ["\"k\" = \"v\";".toList] = .ok (initParser, [none]) := by
  rfl

/-- C3 counterexample: a fresh parser fed `"K" = "V1` and then `V2";` emits
no entry on either line (both lines fall through the initial state's
comment-shaped matchers), rather than one entry with value `V1\nV2`. -/
theorem c3_fresh_multiline_emits_nothing :
    runOutputs initParser ["\"K\" = \"V1".toList, "V2\";".toList] =
      .ok (initParser, [none, none]) := by
  rfl

/-- C3 (corrected): with a preceding comment line putting the parser in
`AWAITING_STRING_AFTER_COMMENT`, the multi-line value round-trip works:
`/* C */`, `"K" = "V1`, `V2";` emits nothing on the first two lines and
exactly one entry on the last line with value `V1\nV2`. -/
theorem c3_multiline_value_roundtrip_after_comment :
    runOutputs initParser
      ["/* C */".toList, "\"K\" = \"V1".toList, "V2\";".toList] =
      .ok (initParser,
        [none, none,
         some ⟨some "K".toList, some "V1\nV2".toList, some "C".toList⟩]) := by
  rfl

/-- C5 counterexample: in `IN_MULTILINE_COMMENT` with stored fragment `X`,
an empty line does not match the end grammar, yet nothing is appended: the
parser is returned completely unchanged (the fragment stays `X`, not
`X\n`). -/
theorem c5_empty_line_not_appended :
    parse_multiline_comment_end ([] : List Char) = none ∧
    parse_line (⟨.COMMENT_MULTILINE, none, none, none, some ['X'], none⟩ :
        LocalizedStringLineParser) [] =
      .ok (⟨.COMMENT_MULTILINE, none, none, none, some ['X'], none⟩, none) ∧
    (⟨.COMMENT_MULTILINE, none, none, none, some ['X'], none⟩ :
        LocalizedStringLineParser).comment_part ≠ some ('X' :: '\n' :: []) :=
  ⟨rfl, rfl, by decide⟩

/-- C2 (corrected): for every well-formed key and value (nonempty, without
quotes or newlines), a fresh parser in the initial state returns NO entry
for the single line `"K" = "V";` (the initial state only tries the
comment-shaped matchers), and the entry is recognized exactly when the
parser is in `AWAITING_STRING_AFTER_COMMENT`, where the line emits one entry
with key `K`, value `V` and the stored pending comment. -/
theorem c2_single_line_entry_needs_string_state (K V : List Char)
    (hK : K ≠ []) (hKq : '"' ∉ K) (hKnl : '\n' ∉ K)
    (hV : V ≠ []) (hVq : '"' ∉ V) (hVnl : '\n' ∉ V) :
    (∀ p : LocalizedStringLineParser, p.parse_state = .COMMENT →
      parse_line p (pairLine K V) =
        .ok ({ p with
               key := none
               value := none
               comment := none
               comment_part := none }, none)) ∧
    (∀ p : LocalizedStringLineParser, p.parse_state = .STRING →
      parse_line p (pairLine K V) =
        .ok ({ p with
               parse_state := .COMMENT
               key := none
               value := none
               comment := none }, some ⟨some K, some V, p.comment⟩)) := by
  constructor
  · intro p hst
    obtain ⟨st, k0, v0, c0, cp0, vp0⟩ := p
    simp only at hst
    subst hst
    have h1 : pairLine K V = '"' :: (K ++ ('"' :: ' ' :: '=' :: ' ' :: '"' ::
        (V ++ ['"', ';']))) := rfl
    have h2 : parse_comment (pairLine K V) = none := by
      rw [h1]; exact parse_comment_quote
    have h3 : parse_multiline_comment_start (pairLine K V) = none := by
      rw [h1]; exact parse_multiline_comment_start_quote
    simp only [parse_line, parse_trailing_comment_pairLine hKq hVq, h2, h3]
    rfl
  · intro p hst
    obtain ⟨st, k0, v0, c0, cp0, vp0⟩ := p
    simp only at hst
    subst hst
    simp only [parse_line, parse_localized_pair_pairLine hK hKq hKnl hV hVq hVnl]
    rfl

/-- C2 witness at `K = "k"`, `V = "v"`. -/
theorem c2_witness :
    parse_line initParser (pairLine ['k'] ['v']) = .ok (initParser, none) ∧
    parse_line (⟨.STRING, none, none, some ['c'], none, none⟩ :
        LocalizedStringLineParser) (pairLine ['k'] ['v']) =
      .ok (⟨.COMMENT, none, none, none, none, none⟩,
        some ⟨some ['k'], some ['v'], some ['c']⟩) := by
  have h := c2_single_line_entry_needs_string_state ['k'] ['v']
    (by decide) (by decide) (by decide) (by decide) (by decide) (by decide)
  exact ⟨h.1 initParser rfl, h.2 ⟨.STRING, none, none, some ['c'], none, none⟩ rfl⟩

/-- C5 (corrected): in `IN_MULTILINE_COMMENT`, every NONEMPTY newline-free
line that does not match the end grammar is appended verbatim (newline
joined) to the stored fragment, and the parser stays in the state with no
entry emitted; an empty line leaves the fragment unchanged (see the
counterexample). -/
theorem c5_comment_continuation_append (p : LocalizedStringLineParser)
    (cp line : List Char) (hst : p.parse_state = .COMMENT_MULTILINE)
    (hcp : p.comment_part = some cp)
    (hend : parse_multiline_comment_end line = none)
    (hne : line ≠ []) (hnl : '\n' ∉ line) :
    parse_line p line =
      .ok ({ p with comment_part := some (cp ++ '\n' :: line) }, none) := by
  obtain ⟨st, k0, v0, c0, cp0, vp0⟩ := p
  simp only at hst hcp
  subst hst
  subst hcp
  simp only [parse_line, hend, parse_multiline_comment_line_full hne hnl]

/-- C5 witness: appending the line ` L2` to the fragment `L1`. -/
theorem c5_witness :
    parse_line (⟨.COMMENT_MULTILINE, none, none, none, some "L1".toList, none⟩ :
        LocalizedStringLineParser) " L2".toList =
      .ok (⟨.COMMENT_MULTILINE, none, none, none, some "L1\n L2".toList, none⟩,
        none) := by
  exact c5_comment_continuation_append
    ⟨.COMMENT_MULTILINE, none, none, none, some "L1".toList, none⟩
    "L1".toList " L2".toList rfl rfl (by rfl) (by decide) (by decide)

/-- C7 (confirmed): for every well-formed `"K" = "V"; /* C */` line (key,
value and comment nonempty, without quotes or newlines), one `parse_line`
call in `AWAITING_COMMENT_OR_ENTRY` emits the complete entry at once, and
the parser remains in `AWAITING_COMMENT_OR_ENTRY`. -/
theorem c7_trailing_comment_one_step (p : LocalizedStringLineParser)
    (K V C : List Char) (hst : p.parse_state = .COMMENT)
    (hK : K ≠ []) (hKq : '"' ∉ K) (hKnl : '\n' ∉ K)
    (hV : V ≠ []) (hVq : '"' ∉ V) (hVnl : '\n' ∉ V)
    (hC : C ≠ []) (hCq : '"' ∉ C) (hCnl : '\n' ∉ C) :
    parse_line p (trailLine K V C) =
      .ok ({ p with key := none, value := none, comment := none },
        some ⟨some K, some V, some C⟩) ∧
    ({ p with key := none, value := none, comment := none } :
      LocalizedStringLineParser).parse_state = .COMMENT := by
  obtain ⟨st, k0, v0, c0, cp0, vp0⟩ := p
  simp only at hst
  subst hst
  constructor
  · simp only [parse_line,
      parse_trailing_comment_trailLine hK hKq hKnl hV hVq hVnl hC hCq hCnl]
    rfl
  · rfl

/-- C7 witness at `K = "k"`, `V = "v"`, `C = "c"`. -/
theorem c7_witness :
    parse_line initParser (trailLine ['k'] ['v'] ['c']) =
      .ok (initParser, some ⟨some ['k'], some ['v'], some ['c']⟩) := by
  exact (c7_trailing_comment_one_step initParser ['k'] ['v'] ['c'] rfl
    (by decide) (by decide) (by decide) (by decide) (by decide) (by decide)
    (by decide) (by decide) (by decide)).1

/-- C8 (confirmed): in `AWAITING_STRING_AFTER_COMMENT`, a line matching
neither the full-entry grammar nor the multi-line value start produces no
output, leaves the parser in the same state, and leaves the stored pending
comment unchanged (the record update below touches neither `parse_state`
nor `comment`). -/
theorem c8_string_state_frame (p : LocalizedStringLineParser) (line : List Char)
    (hst : p.parse_state = .STRING)
    (hpair : parse_localized_pair line = (none, none))
    (hstart : parse_multiline_start line = (none, none)) :
    parse_line p line =
      .ok ({ p with key := none, value := none, value_part := none }, none) ∧
    ({ p with key := none, value := none, value_part := none } :
        LocalizedStringLineParser).comment = p.comment ∧
    ({ p with key := none, value := none, value_part := none } :
        LocalizedStringLineParser).parse_state = .STRING := by
  obtain ⟨st, k0, v0, c0, cp0, vp0⟩ := p
  simp only at hst
  subst hst
  exact ⟨by simp only [parse_line, hpair, hstart]; rfl, rfl, rfl⟩

/-- C8 witness on the line `garbage`. -/
theorem c8_witness :
    parse_line (⟨.STRING, none, none, some ['c'], none, none⟩ :
        LocalizedStringLineParser) "garbage".toList =
      .ok (⟨.STRING, none, none, some ['c'], none, none⟩, none) := by
  exact (c8_string_state_frame ⟨.STRING, none, none, some ['c'], none, none⟩
    "garbage".toList rfl (by rfl) (by rfl)).1

/-- C1 counterexample: no line sequence ever brings the parser into
`AWAITING_TRAILING_COMMENT` — the state is assigned nowhere in
`parse_line`, so the claim's reachability assertion is false. -/
theorem c1_trailing_state_unreachable :
    ¬ ∃ (lines : List (List Char)) (p : LocalizedStringLineParser)
        (outs : List (Option LocalizedString)),
        runOutputs initParser lines = .ok (p, outs) ∧
        p.parse_state = .TRAILING_COMMENT := by
  rintro ⟨lines, p, outs, hrun, hstate⟩
  obtain ⟨p', outs', hrun', hinv, _⟩ := runOutputs_inv lines initParser inv_initParser
  rw [hrun] at hrun'
  have hp : p = p' := by
    have := congrArg (fun r => match r with | .ok (q, _) => some q | .error _ => none)
      hrun'
    simpa using this
  exact hinv.2.2 (hp ▸ hstate)

/-- C1 (corrected): the state `AWAITING_TRAILING_COMMENT` is dead code — it
is never reached from the initial state by any line sequence; its handler,
were the parser ever placed in it, would emit the pending entry on a line
matching the single-line comment grammar and return to
`AWAITING_COMMENT_OR_ENTRY`. -/
theorem c1_trailing_state_dead :
    (∀ (lines : List (List Char)) (p : LocalizedStringLineParser)
        (outs : List (Option LocalizedString)),
        runOutputs initParser lines = .ok (p, outs) →
        p.parse_state ≠ .TRAILING_COMMENT) ∧
    (∀ (p : LocalizedStringLineParser) (line c : List Char),
        p.parse_state = .TRAILING_COMMENT → parse_comment line = some c →
        parse_line p line =
          .ok ({ p with
                 parse_state := .COMMENT
                 key := none
                 value := none
                 comment := none }, some ⟨p.key, p.value, some c⟩)) := by
  constructor
  · intro lines p outs hrun
    obtain ⟨p', outs', hrun', hinv, _⟩ :=
      runOutputs_inv lines initParser inv_initParser
    rw [hrun] at hrun'
    have hp : p = p' := by
      have := congrArg (fun r => match r with | .ok (q, _) => some q | .error _ => none)
        hrun'
      simpa using this
    exact hp ▸ hinv.2.2
  · intro p line c hst hc
    obtain ⟨st, k0, v0, c0, cp0, vp0⟩ := p
    simp only at hst
    subst hst
    simp only [parse_line, hc]
    rfl

/-- C1 witness: the first part at the empty line sequence, the second at a
parser placed by hand in the dead state. -/
theorem c1_witness :
    initParser.parse_state ≠ ParseStates.TRAILING_COMMENT ∧
    parse_line (⟨.TRAILING_COMMENT, some ['k'], some ['v'], none, none, none⟩ :
        LocalizedStringLineParser) "/* c */".toList =
      .ok (⟨.COMMENT, none, none, none, none, none⟩,
        some ⟨some ['k'], some ['v'], some ['c']⟩) := by
  refine ⟨c1_trailing_state_dead.1 [] initParser [] rfl, ?_⟩
  exact c1_trailing_state_dead.2
    ⟨.TRAILING_COMMENT, some ['k'], some ['v'], none, none, none⟩
    "/* c */".toList ['c'] rfl (by rfl)

/-- C9 (confirmed): for every sequence of input lines, running the parser
from the initial state never raises: the result is always `.ok`, with the
absence of an emitted entry the only feedback on a malformed line. -/
theorem c9_parse_line_never_raises (lines : List (List Char)) :
    ∃ r, runOutputs initParser lines = .ok r := by
  obtain ⟨p', outs, hrun, _, _⟩ := runOutputs_inv lines initParser inv_initParser
  exact ⟨(p', outs), hrun⟩

/-- C10 (confirmed): every entry the parser ever emits from the initial
state has both its key and its value set (the comment may be `none`); and a
sequence that ends in a multi-line accumulation state emits nothing for the
dangling fragments — shown on the boundary file `/* C */`, `"K" = "V1`,
which ends in `IN_MULTILINE_VALUE` with only `none` outputs. -/
theorem c10_entries_have_key_value :
    (∀ (lines : List (List Char)) (p : LocalizedStringLineParser)
        (outs : List (Option LocalizedString)),
        runOutputs initParser lines = .ok (p, outs) →
        ∀ o ∈ outs, ∀ e, o = some e →
          e.key.isSome = true ∧ e.value.isSome = true) ∧
    runOutputs initParser ["/* C */".toList, "\"K\" = \"V1".toList] =
      .ok ({ initParser with
             parse_state := .STRING_MULTILINE
             key := some "K".toList
             comment := some "C".toList
             value_part := some "V1".toList }, [none, none]) := by
  constructor
  · intro lines p outs hrun
    obtain ⟨p', outs', hrun', _, houts⟩ :=
      runOutputs_inv lines initParser inv_initParser
    rw [hrun] at hrun'
    have ho : outs = outs' := by
      have := congrArg
        (fun r => match r with | Except.ok (_, os) => some os | .error _ => none)
        hrun'
      simpa using this
    exact ho ▸ houts
  · rfl

/-- C10 witness: the first part applied to a two-line file whose entry is
`("k", "v", "a")`. -/
theorem c10_witness :
    (⟨some "k".toList, some "v".toList, some "a".toList⟩ :
        LocalizedString).key.isSome = true ∧
    (⟨some "k".toList, some "v".toList, some "a".toList⟩ :
        LocalizedString).value.isSome = true := by
  exact c10_entries_have_key_value.1
    ["/* a */".toList, "\"k\" = \"v\";".toList] initParser
    [none, some ⟨some "k".toList, some "v".toList, some "a".toList⟩] (by rfl)
    (some ⟨some "k".toList, some "v".toList, some "a".toList⟩) (by simp)
    ⟨some "k".toList, some "v".toList, some "a".toList⟩ rfl
